import Mathlib

/-!
Verification of the `mon.py` file-watching developer loop.

The program watches a project tree and reacts to file changes by running
a test command or a documentation build.  We embed its pure logic
(extension classification, handler dispatch, command-runner effect
traces, and the outer watch loop's lifecycle) as Lean definitions
translated from the source, and prove the specified properties.

Paths are modelled as strings over `List Char` (POSIX separator `'/'`,
no alternative separator), matching the platform the program targets.
-/

namespace Mon

/-- ASCII lowercasing of one character, modelling Python `str.lower`
(which on ASCII maps `A`..`Z` to `a`..`z` and leaves the rest alone;
all strings the program handles are ASCII). -/
def pyLowerChar (c : Char) : Char :=
  if 65 ≤ c.toNat ∧ c.toNat ≤ 90 then Char.ofNat (c.toNat + 32) else c

/-- `str.lower` on a character list. -/
def pyLowerL (l : List Char) : List Char := l.map pyLowerChar

/-- `str.lower` on a string. -/
def pyLower (s : String) : String := ⟨pyLowerL s.data⟩

/-- Python `str.rfind` for a single character: the highest index at which
`c` occurs in `l`, or `-1` if it does not occur. -/
def rfind (c : Char) : List Char → Int
  | [] => -1
  | x :: xs =>
    let r := rfind c xs
    if r = -1 then (if x = c then 0 else -1) else r + 1

/-- CPython `posixpath.splitext` (`genericpath._splitext` with
`sep = '/'`, no `altsep`, `extsep = '.'`): find the last separator and
the last dot; if the last dot lies after the last separator and some
character strictly between them is not a dot (i.e. the basename does not
consist solely of leading dots up to that point), split there; otherwise
the extension is empty. -/
def splitextL (p : List Char) : List Char × List Char :=
  let sepIndex := rfind '/' p
  let dotIndex := rfind '.' p
  if sepIndex < dotIndex then
    if ((p.drop (sepIndex + 1).toNat).take (dotIndex - sepIndex - 1).toNat).any
        (fun c => c ≠ '.') then
      (p.take dotIndex.toNat, p.drop dotIndex.toNat)
    else (p, [])
  else (p, [])

/-- `getext` from the source: `os.path.splitext(filename)[-1].lower()`,
on character lists. -/
def getextL (p : List Char) : List Char := pyLowerL (splitextL p).2

/-- `getext` from the source, on strings. -/
def getext (filename : String) : String := ⟨getextL filename.data⟩

/-- The final path segment: the part of the path after its last `'/'`
(the whole path when it has no `'/'`).  Spec-side notion used to state
the classifier's contract. -/
def finalSegment : List Char → List Char
  | [] => []
  | c :: cs => if '/' ∈ cs then finalSegment cs else if c = '/' then cs else c :: cs

/-- The suffix of a segment starting at its last dot (empty when the
segment has no dot).  Spec-side notion: "the last dot-delimited suffix,
including the leading dot". -/
def fromLastDot : List Char → List Char
  | [] => []
  | c :: cs => if '.' ∈ cs then fromLastDot cs else if c = '.' then c :: cs else []

/-- The classifier's contract as the spec words it: the lowercased last
dot-delimited suffix of the final path segment, including the leading
dot, and the empty string when the path has no extension.  A segment
has an extension exactly when a dot remains after stripping the
segment's leading dots (so dotfiles such as `.bashrc` have none). -/
def specExtL (p : List Char) : List Char :=
  let seg := finalSegment p
  if '.' ∈ seg.dropWhile (fun c => c = '.') then pyLowerL (fromLastDot seg) else []

/-- String form of `specExtL`. -/
def specExt (p : String) : String := ⟨specExtL p.data⟩

/-- A filesystem event as delivered by the watching facility: a path and
a directory/file flag (watchdog's `FileSystemEvent`). -/
structure Event where
  is_directory : Bool
  src_path : String
deriving DecidableEq

/-- `ChangeHandler`: binds a list of watched extensions to an action.
The action is an abstract tag `α`; an invocation is recorded as the
pair (action, event). -/
structure ChangeHandler (α : Type) where
  exts : List String
  func : α
deriving DecidableEq

/-- `ChangeHandler.__init__`: a single string becomes a one-element
list; any other sequence is copied with `list(extensions)`. -/
def mkChangeHandler (extensions : String ⊕ List String) (func : α) : ChangeHandler α :=
  match extensions with
  | .inl s => ⟨[s], func⟩
  | .inr l => ⟨l, func⟩

/-- `ChangeHandler.on_any_event`: ignore directory events; otherwise
invoke the bound action exactly when the classified extension of the
event's path is a member of the watched list.  The result is the list
of invocations the call performs. -/
def ChangeHandler.on_any_event (self : ChangeHandler α) (event : Event) :
    List (α × Event) :=
  if event.is_directory then []
  else if getext event.src_path ∈ self.exts then [(self.func, event)] else []

/-- `on_any_event` as a state transformer: the method reads
`self.__exts` and `self.__func` and assigns to neither, so the
post-state handler is the receiver unchanged. -/
def ChangeHandler.on_any_eventSt (self : ChangeHandler α) (event : Event) :
    ChangeHandler α × List (α × Event) :=
  (self, self.on_any_event event)

/-- Deliver a whole sequence of events to a handler, threading the
handler state and collecting every invocation. -/
def processAll (h : ChangeHandler α) (es : List Event) :
    ChangeHandler α × List (α × Event) :=
  es.foldl (fun acc e =>
    let step := acc.1.on_any_eventSt e
    (step.1, acc.2 ++ step.2)) (h, [])

/-- The two actions `main` binds to its handlers. -/
inductive Action where
  | runTests
  | buildDocs
deriving DecidableEq

/-- One observable side effect of a command runner.  `printOut`/`printErr`
are lines written to standard output / standard error, `chdir` is
`os.chdir`, and `call cmd shell` is `subprocess.call(cmd, shell=shell)`
(`shell` defaults to `False` in Python). -/
inductive Effect where
  | printOut (line : String)
  | printErr (line : String)
  | chdir (dir : String)
  | call (cmd : String) (shell : Bool)
deriving DecidableEq

/-- The 79-character separator line `"-" * 79`. -/
def sep79 : String := ⟨List.replicate 79 '-'⟩

/-- `strftime` format used by `now()`. -/
def nowFormat : String := "%Y/%m/%d %H:%M:%S"

/-- `build_docs(event)`: banner to stderr, separator, `os.chdir(BASEDIR)`,
`subprocess.call(r'ldoc.lua src', shell=True)`, separator.  `basedir`
is the value of the `BASEDIR` global, `now` the formatted timestamp,
`event` the (unused) triggering event, and `rc` the exit status the
external command returns (`subprocess.call`'s result, which the source
drops). -/
def build_docs (basedir now : String) (event : Event) (rc : Int) : List Effect :=
  [Effect.printErr ("Building docs at " ++ now),
   Effect.printOut sep79,
   Effect.chdir basedir,
   Effect.call "ldoc.lua src" true,
   Effect.printOut sep79]

/-- `run_tests(event)`: banner to stderr, separator, `os.chdir(BASEDIR)`,
`subprocess.call(r'busted')` (no `shell=True`), separator. -/
def run_tests (basedir now : String) (event : Event) (rc : Int) : List Effect :=
  [Effect.printErr ("Running unit tests at " ++ now),
   Effect.printOut sep79,
   Effect.chdir basedir,
   Effect.call "busted" false,
   Effect.printOut sep79]

/-- Is the effect a `subprocess.call`? -/
def Effect.isCall : Effect → Bool
  | .call _ _ => true
  | _ => false

/-- Is the effect a write to standard error? -/
def Effect.isErrLine : Effect → Bool
  | .printErr _ => true
  | _ => false

/-- Is the effect a write to standard output? -/
def Effect.isOutLine : Effect → Bool
  | .printOut _ => true
  | _ => false

/-- A watch registration: `observer.schedule(handler, dir, recursive)`. -/
structure Registration (α : Type) where
  dir : String
  recursive : Bool
  handler : ChangeHandler α

/-- Modelled from the spec: the filesystem watch collaborator (the
`watchdog` observer, whose code is not part of this repository) delivers
an event to a registration when the event's path lies inside the
registered directory — strictly below it for a recursive registration,
directly inside it otherwise. -/
def withinScope (dir : String) (recursive : Bool) (path : String) : Bool :=
  if recursive then (dir.data ++ ['/']).isPrefixOf path.data
  else decide (path.data.take (rfind '/' path.data).toNat = dir.data)

/-- Modelled from the spec: the observer routes an event to every
registration whose scope contains it, each matching registration's
handler running `on_any_event` once. -/
def observerDispatch (regs : List (Registration α)) (e : Event) : List (α × Event) :=
  regs.foldr (fun r acc =>
    (if withinScope r.dir r.recursive e.src_path then r.handler.on_any_event e else [])
      ++ acc) []

/-- The two registrations `main` makes each iteration: the test handler
on `BASEDIR` recursive and the docs handler on `BASEDIR/src` recursive,
both constructed with the single extension string `'.lua'`. -/
def mainRegistrations (basedir : String) : List (Registration Action) :=
  [⟨basedir, true, mkChangeHandler (.inl ".lua") Action.runTests⟩,
   ⟨basedir ++ "/src", true, mkChangeHandler (.inl ".lua") Action.buildDocs⟩]

/-- One step of `main`'s outer loop, tagged with the iteration number it
belongs to, so that handler instances of different iterations are
distinguishable. -/
inductive MainStep where
  | constructTestHandler (iter : Nat)
  | constructDocsHandler (iter : Nat)
  | scheduleBase (iter : Nat)
  | scheduleSrc (iter : Nat)
  | startObserver (iter : Nat)
  | sleepTick (iter : Nat)
  | interrupt (iter : Nat)
  | stopObserver (iter : Nat)
  | joinObserver (iter : Nat)
deriving DecidableEq

/-- The iteration a step belongs to. -/
def MainStep.iter : MainStep → Nat
  | .constructTestHandler k => k
  | .constructDocsHandler k => k
  | .scheduleBase k => k
  | .scheduleSrc k => k
  | .startObserver k => k
  | .sleepTick k => k
  | .interrupt k => k
  | .stopObserver k => k
  | .joinObserver k => k

/-- One iteration of `main`'s `while 1` loop, ended by a
`KeyboardInterrupt` after `m` sleep ticks: construct the two fresh
handlers, schedule both watches, start the observer, sleep until the
interrupt arrives, then `observer.stop()` inside the handler and
`observer.join()` after it. -/
def mainIteration (k m : Nat) : List MainStep :=
  [MainStep.constructTestHandler k, MainStep.constructDocsHandler k,
   MainStep.scheduleBase k, MainStep.scheduleSrc k, MainStep.startObserver k]
  ++ List.replicate m (MainStep.sleepTick k)
  ++ [MainStep.interrupt k, MainStep.stopObserver k, MainStep.joinObserver k]

/-- The trace of the first `n` iterations of `main`'s unbounded outer
loop, where iteration `k` sees `m k` sleep ticks before its interrupt. -/
def mainTrace (n : Nat) (m : Nat → Nat) : List MainStep :=
  match n with
  | 0 => []
  | n + 1 => mainTrace n m ++ mainIteration n (m n)

/-- An ASCII uppercase letter. -/
def isUpperAscii (c : Char) : Prop := 65 ≤ c.toNat ∧ c.toNat ≤ 90

instance (c : Char) : Decidable (isUpperAscii c) := by
  unfold isUpperAscii; infer_instance

end Mon

/-!  Helper lemmas: Python `str.rfind`, `posixpath.splitext`, and the
equivalence of the classifier with its spec-side characterization. -/

namespace Mon

theorem rfind_eq_neg_one {c : Char} {l : List Char} (h : c ∉ l) : rfind c l = -1 := by
  induction l with
  | nil => rfl
  | cons x xs ih =>
    simp only [List.mem_cons, not_or] at h
    simp [rfind, ih h.2, Ne.symm h.1]

theorem rfind_ge_neg_one (c : Char) (l : List Char) : -1 ≤ rfind c l := by
  induction l with
  | nil => simp [rfind]
  | cons x xs ih =>
    simp only [rfind]
    split
    · split <;> omega
    · omega

theorem rfind_nonneg {c : Char} {l : List Char} (h : c ∈ l) : 0 ≤ rfind c l := by
  induction l with
  | nil => exact absurd h (List.not_mem_nil c)
  | cons x xs ih =>
    simp only [rfind]
    split
    · rcases List.mem_cons.mp h with h1 | h2
      · simp [h1]
      · have := ih h2; omega
    · have := rfind_ge_neg_one c xs; omega

theorem rfind_lt_length (c : Char) (l : List Char) : rfind c l < l.length := by
  induction l with
  | nil => simp [rfind]
  | cons x xs ih =>
    simp only [rfind, List.length_cons]
    split
    · split <;> omega
    · omega

theorem rfind_append_right {c : Char} {b : List Char} (a : List Char) (h : c ∈ b) :
    rfind c (a ++ b) = a.length + rfind c b := by
  induction a with
  | nil => simp
  | cons x as ih =>
    have hmem : c ∈ as ++ b := List.mem_append_right _ h
    have h0 : 0 ≤ rfind c (as ++ b) := rfind_nonneg hmem
    simp only [List.cons_append, rfind, List.append_eq] at *
    rw [ih] at h0 ⊢
    rw [if_neg (by omega)]
    simp only [List.length_cons]
    push_cast
    omega

theorem rfind_append_left {c : Char} {b : List Char} (a : List Char) (h : c ∉ b) :
    rfind c (a ++ b) = rfind c a := by
  induction a with
  | nil => simp [rfind, rfind_eq_neg_one h]
  | cons x as ih =>
    simp only [List.cons_append, rfind, List.append_eq] at *
    rw [ih]

theorem drop_rfind_eq_fromLastDot {l : List Char} (h : '.' ∈ l) :
    l.drop (rfind '.' l).toNat = fromLastDot l := by
  induction l with
  | nil => exact absurd h (List.not_mem_nil _)
  | cons x xs ih =>
    by_cases hxs : '.' ∈ xs
    · have h0 : 0 ≤ rfind '.' xs := rfind_nonneg hxs
      simp only [rfind, fromLastDot, if_pos hxs]
      rw [if_neg (by omega)]
      have : (rfind '.' xs + 1).toNat = (rfind '.' xs).toNat + 1 := by omega
      rw [this, List.drop_succ_cons, ih hxs]
    · have hx : x = '.' := by
        rcases List.mem_cons.mp h with h1 | h2
        · exact h1.symm
        · exact absurd h2 hxs
      simp [rfind, fromLastDot, rfind_eq_neg_one hxs, hx, hxs]

theorem take_any_iff_dropWhile {l : List Char} (h : '.' ∈ l) :
    ((l.take (rfind '.' l).toNat).any (fun c => c ≠ '.') = true)
      ↔ '.' ∈ l.dropWhile (fun c => c = '.') := by
  induction l with
  | nil => exact absurd h (List.not_mem_nil _)
  | cons x xs ih =>
    by_cases hx : x = '.'
    · subst hx
      by_cases hxs : '.' ∈ xs
      · have h0 : 0 ≤ rfind '.' xs := rfind_nonneg hxs
        simp only [rfind]
        rw [if_neg (by omega)]
        have : (rfind '.' xs + 1).toNat = (rfind '.' xs).toNat + 1 := by omega
        rw [this]
        simp only [List.take_succ_cons, List.any_cons, List.dropWhile_cons]
        simpa using ih hxs
      · simp only [rfind, rfind_eq_neg_one hxs, if_pos rfl, if_pos rfl]
        simp only [Int.toNat_zero, List.take_zero, List.any_nil,
          List.dropWhile_cons, if_pos rfl]
        constructor
        · intro hfalse; cases hfalse
        · intro hmem
          exact absurd (List.dropWhile_sublist _ |>.mem hmem) hxs
    · have hxs : '.' ∈ xs := by
        rcases List.mem_cons.mp h with h1 | h2
        · exact absurd h1.symm hx
        · exact h2
      have h0 : 0 ≤ rfind '.' xs := rfind_nonneg hxs
      simp only [rfind]
      rw [if_neg (by omega)]
      have : (rfind '.' xs + 1).toNat = (rfind '.' xs).toNat + 1 := by omega
      rw [this]
      simp only [List.take_succ_cons, List.any_cons, List.dropWhile_cons]
      simp [hx, hxs]

theorem finalSegment_no_slash {l : List Char} (h : '/' ∉ l) : finalSegment l = l := by
  induction l with
  | nil => rfl
  | cons x xs ih =>
    simp only [List.mem_cons, not_or] at h
    simp [finalSegment, h.2, Ne.symm h.1, ih h.2]

theorem finalSegment_append {s : List Char} (d : List Char) (h : '/' ∉ s) :
    finalSegment (d ++ '/' :: s) = s := by
  induction d with
  | nil =>
    simp [finalSegment, h]
  | cons x ds ih =>
    have : '/' ∈ ds ++ '/' :: s := List.mem_append_right _ (List.mem_cons_self _ _)
    simp [finalSegment, this, ih]

theorem last_occ_decomp {c : Char} {l : List Char} (h : c ∈ l) :
    ∃ a b, l = a ++ c :: b ∧ c ∉ b := by
  induction l with
  | nil => exact absurd h (List.not_mem_nil _)
  | cons x xs ih =>
    by_cases hxs : c ∈ xs
    · obtain ⟨a, b, hab, hnb⟩ := ih hxs
      exact ⟨x :: a, b, by simp [hab], hnb⟩
    · have hx : c = x := by
        rcases List.mem_cons.mp h with h1 | h2
        · exact h1
        · exact absurd h2 hxs
      exact ⟨[], xs, by simp [hx], hxs⟩

theorem getextL_seg_char {s : List Char} (h : '/' ∉ s) (hd : '.' ∈ s) :
    getextL s = (if ((s.take (rfind '.' s).toNat).any (fun c => c ≠ '.')) = true
                 then pyLowerL (s.drop (rfind '.' s).toNat) else []) := by
  have hsep : rfind '/' s = -1 := rfind_eq_neg_one h
  have hdot : 0 ≤ rfind '.' s := rfind_nonneg hd
  simp only [getextL, splitextL, hsep]
  rw [if_pos (by omega)]
  have h1 : (-1 + 1 : Int).toNat = 0 := by omega
  have h2 : rfind '.' s - (-1) - 1 = rfind '.' s := by omega
  rw [h1, h2, List.drop_zero]
  by_cases hany : (s.take (rfind '.' s).toNat).any (fun c => c ≠ '.') = true
  · rw [if_pos hany, if_pos hany]
  · rw [if_neg hany, if_neg hany]
    rfl

theorem getextL_no_slash {s : List Char} (h : '/' ∉ s) :
    getextL s = (if '.' ∈ s.dropWhile (fun c => c = '.')
                 then pyLowerL (fromLastDot s) else []) := by
  by_cases hd : '.' ∈ s
  · rw [getextL_seg_char h hd]
    by_cases hany : (s.take (rfind '.' s).toNat).any (fun c => c ≠ '.') = true
    · rw [if_pos hany, if_pos ((take_any_iff_dropWhile hd).mp hany)]
      rw [drop_rfind_eq_fromLastDot hd]
    · rw [if_neg hany, if_neg (fun hc => hany ((take_any_iff_dropWhile hd).mpr hc))]
  · have hsep : rfind '/' s = -1 := rfind_eq_neg_one h
    have hdot : rfind '.' s = -1 := rfind_eq_neg_one hd
    have hnd : '.' ∉ s.dropWhile (fun c => c = '.') :=
      fun hc => hd ((List.dropWhile_sublist _).mem hc)
    simp only [getextL, splitextL, hsep, hdot]
    rw [if_neg (by omega), if_neg hnd]
    rfl

theorem getextL_append_seg {s : List Char} (d : List Char) (h : '/' ∉ s) :
    getextL (d ++ '/' :: s) = getextL s := by
  have hsep : rfind '/' (d ++ '/' :: s) = d.length := by
    rw [rfind_append_right d (List.mem_cons_self _ _)]
    simp [rfind, rfind_eq_neg_one h]
  by_cases hd : '.' ∈ s
  · have hds : '.' ∈ '/' :: s := List.mem_cons_of_mem _ hd
    have h0 : 0 ≤ rfind '.' s := rfind_nonneg hd
    have hdot : rfind '.' (d ++ '/' :: s) = d.length + 1 + rfind '.' s := by
      rw [rfind_append_right d hds]
      simp only [rfind]
      rw [if_neg (by omega)]
      ring
    rw [getextL_seg_char h hd]
    simp only [getextL, splitextL, hsep, hdot]
    rw [if_pos (by omega)]
    have hlen : (d ++ ['/']).length = d.length + 1 := by
      simp
    have hdrop : (d ++ '/' :: s).drop ((d.length : Int) + 1).toNat = s := by
      have he : ((d.length : Int) + 1).toNat = (d ++ ['/']).length := by
        rw [hlen]; omega
      rw [he, List.append_cons d '/' s, List.drop_left]
    have htake : ((d.length : Int) + 1 + rfind '.' s - d.length - 1) = rfind '.' s := by
      ring
    rw [hdrop, htake]
    by_cases hany : (s.take (rfind '.' s).toNat).any (fun c => c ≠ '.') = true
    · rw [if_pos hany, if_pos hany]
      have hidx : ((d.length : Int) + 1 + rfind '.' s).toNat
          = (d ++ ['/']).length + (rfind '.' s).toNat := by
        rw [hlen]; omega
      simp only [hidx]
      rw [List.append_cons d '/' s, List.drop_append]
    · rw [if_neg hany, if_neg hany]
      rfl
  · have hnd : '.' ∉ '/' :: s := by
      intro hc
      rcases List.mem_cons.mp hc with h1 | h2
      · cases h1
      · exact hd h2
    have hdot : rfind '.' (d ++ '/' :: s) = rfind '.' d := rfind_append_left d hnd
    have hlt : rfind '.' d < d.length := rfind_lt_length '.' d
    have hsep2 : rfind '/' s = -1 := rfind_eq_neg_one h
    have hdot2 : rfind '.' s = -1 := rfind_eq_neg_one hd
    simp only [getextL, splitextL, hsep, hdot, hsep2, hdot2]
    rw [if_neg (by omega), if_neg (by omega)]

theorem getextL_eq_specExtL (p : List Char) : getextL p = specExtL p := by
  by_cases h : '/' ∈ p
  · obtain ⟨d, s, hds, hns⟩ := last_occ_decomp h
    subst hds
    rw [getextL_append_seg d hns]
    simp only [specExtL, finalSegment_append d hns]
    exact getextL_no_slash hns
  · simp only [specExtL, finalSegment_no_slash h]
    exact getextL_no_slash h

theorem getext_eq_specExt (p : String) : getext p = specExt p := by
  simp only [getext, specExt, getextL_eq_specExtL]

end Mon

/-!  Helper lemmas: lowercasing, handler state, the watch-loop trace,
and the concrete `src/foo.lua` scenario. -/

namespace Mon

theorem toNat_ofNat_of_valid {n : Nat} (h : n.isValidChar) : (Char.ofNat n).toNat = n := by
  unfold Char.ofNat
  rw [dif_pos h]
  rfl

theorem pyLowerChar_not_upper (c : Char) : ¬ isUpperAscii (pyLowerChar c) := by
  unfold pyLowerChar isUpperAscii
  split
  · rename_i hc
    have hv : (c.toNat + 32).isValidChar := Or.inl (by omega)
    rw [toNat_ofNat_of_valid hv]
    omega
  · rename_i hc
    exact hc

theorem foldl_fst {α : Type} (es : List Event) (acc : ChangeHandler α × List (α × Event)) :
    (es.foldl (fun acc e =>
      let step := acc.1.on_any_eventSt e
      (step.1, acc.2 ++ step.2)) acc).1 = acc.1 := by
  induction es generalizing acc with
  | nil => rfl
  | cons e es ih =>
    simp only [List.foldl_cons]
    rw [ih]
    rfl

theorem iter_of_mem_mainIteration {st : MainStep} {k m : Nat}
    (h : st ∈ mainIteration k m) : st.iter = k := by
  rcases List.mem_append.mp h with h1 | h2
  · rcases List.mem_append.mp h1 with h3 | h4
    · fin_cases h3 <;> rfl
    · rw [(List.mem_replicate.mp h4).2]
      rfl
  · fin_cases h2 <;> rfl

theorem filter_iter_mainIteration (k m j : Nat) :
    (mainIteration k m).filter (fun st => st.iter = j)
      = if j = k then mainIteration k m else [] := by
  split
  · rename_i hj
    subst hj
    refine List.filter_eq_self.mpr (fun a ha => ?_)
    simp [iter_of_mem_mainIteration ha]
  · rename_i hj
    refine List.filter_eq_nil_iff.mpr (fun a ha => ?_)
    simp [iter_of_mem_mainIteration ha]
    exact fun hc => hj hc.symm

theorem isPrefixOf_append_self (a t : List Char) : a.isPrefixOf (a ++ t) = true := by
  induction a with
  | nil => exact List.isPrefixOf_nil_left
  | cons x a ih =>
    simp only [List.cons_append, List.isPrefixOf, beq_self_eq_true, Bool.true_and]
    exact ih

theorem isPrefixOf_extend (a b t : List Char) :
    (a ++ b).isPrefixOf (a ++ (b ++ t)) = true := by
  rw [← List.append_assoc]
  exact isPrefixOf_append_self (a ++ b) t

theorem withinScope_base (b : String) :
    withinScope b true (b ++ "/src/foo.lua") = true := by
  show (b.data ++ ['/']).isPrefixOf ((b ++ "/src/foo.lua").data) = true
  rw [String.data_append]
  rw [show "/src/foo.lua".data = ['/'] ++ "src/foo.lua".data from rfl]
  exact isPrefixOf_extend b.data ['/'] "src/foo.lua".data

theorem withinScope_src (b : String) :
    withinScope (b ++ "/src") true (b ++ "/src/foo.lua") = true := by
  show ((b ++ "/src").data ++ ['/']).isPrefixOf ((b ++ "/src/foo.lua").data) = true
  rw [String.data_append, String.data_append]
  rw [show "/src/foo.lua".data = ("/src".data ++ ['/']) ++ "foo.lua".data from rfl]
  rw [List.append_assoc b.data "/src".data ['/']]
  exact isPrefixOf_extend b.data ("/src".data ++ ['/']) "foo.lua".data

theorem getext_src_foo (b : String) : getext (b ++ "/src/foo.lua") = ".lua" := by
  unfold getext
  have h1 : (b ++ "/src/foo.lua").data
      = (b.data ++ '/' :: "src".data) ++ '/' :: "foo.lua".data := by
    rw [String.data_append]
    rw [show "/src/foo.lua".data = ('/' :: "src".data) ++ '/' :: "foo.lua".data from rfl]
    rw [List.append_assoc]
  rw [h1, getextL_append_seg _ (by decide)]
  rw [show getextL "foo.lua".data = ".lua".data from by decide]

end Mon

/-!  The specified properties. -/

namespace Mon

theorem filter_iter_mainTrace (n : Nat) (m : Nat → Nat) (k : Nat) :
    (mainTrace n m).filter (fun st => st.iter = k)
      = if k < n then mainIteration k (m k) else [] := by
  induction n with
  | zero => simp [mainTrace]
  | succ n ih =>
    simp only [mainTrace, List.filter_append, ih, filter_iter_mainIteration]
    by_cases h1 : k < n
    · rw [if_pos h1, if_neg (by omega), if_pos (by omega), List.append_nil]
    · by_cases h2 : k = n
      · subst h2
        rw [if_neg h1, if_pos rfl, if_pos (by omega), List.nil_append]
      · rw [if_neg h1, if_neg h2, if_neg (by omega), List.append_nil]

/-- C1: for every Change Handler and every event, `on_any_event` invokes
nothing on a directory event; on a file event whose classified extension
is watched it invokes the bound action exactly once with that event;
otherwise it invokes nothing (and, being a total function, raises no
error).  A handler constructed with the sequence `[".lua", ".md"]`
matches file events of exactly those two classified extensions. -/
theorem on_any_event_dispatch {α : Type} (h : ChangeHandler α) (f : α) (e : Event) :
    (e.is_directory = true → h.on_any_event e = [])
    ∧ (e.is_directory = false → getext e.src_path ∈ h.exts →
        h.on_any_event e = [(h.func, e)])
    ∧ (e.is_directory = false → getext e.src_path ∉ h.exts →
        h.on_any_event e = [])
    ∧ (e.is_directory = false →
        ((mkChangeHandler (.inr [".lua", ".md"]) f).on_any_event e ≠ [] ↔
          (getext e.src_path = ".lua" ∨ getext e.src_path = ".md"))) := by
  refine ⟨?_, ?_, ?_, ?_⟩
  · intro hd
    simp [ChangeHandler.on_any_event, hd]
  · intro hd hm
    simp [ChangeHandler.on_any_event, hd, hm]
  · intro hd hm
    simp [ChangeHandler.on_any_event, hd, hm]
  · intro hd
    by_cases hm : getext e.src_path ∈ ([".lua", ".md"] : List String)
    · simp only [ChangeHandler.on_any_event, mkChangeHandler, hd, Bool.false_eq_true,
        if_false, if_pos hm]
      simp only [List.mem_cons, List.not_mem_nil, or_false] at hm
      simp [hm]
    · simp only [ChangeHandler.on_any_event, mkChangeHandler, hd, Bool.false_eq_true,
        if_false, if_neg hm]
      simp only [List.mem_cons, List.not_mem_nil, or_false, not_or] at hm
      simp [hm.1, hm.2]

/-- Witness for `on_any_event_dispatch`: a `.lua` handler fires exactly
once on a matching file event. -/
theorem on_any_event_dispatch_witness :
    ChangeHandler.on_any_event (⟨[".lua"], (0 : Nat)⟩ : ChangeHandler Nat)
        ⟨false, "x/a.lua"⟩ = [((0 : Nat), ⟨false, "x/a.lua"⟩)] :=
  (on_any_event_dispatch (⟨[".lua"], (0 : Nat)⟩ : ChangeHandler Nat) 0
    ⟨false, "x/a.lua"⟩).2.1 rfl (by decide)

/-- C2: `getext` returns the lowercased last dot-delimited suffix of the
final path segment (including the leading dot), and the empty string
when the path has no extension — where a segment whose dots are all
leading has none; `getext "README" = ""` and
`getext "a/b/c.LUA" = ".lua"`.  The function is a total Lean function,
so it is pure and raises no error on any input string. -/
theorem getext_classifies :
    (∀ p : String, getext p = specExt p)
    ∧ getext "README" = "" ∧ getext "a/b/c.LUA" = ".lua" :=
  ⟨getext_eq_specExt, by decide, by decide⟩

/-- C3 counterexample: with the handlers and scopes exactly as `main`
constructs them, creating the file `src/foo.lua` under project root
`"/proj"` produces a test-run invocation (count 1, not 0) alongside the
doc-build invocation. -/
theorem src_foo_lua_triggers_tests :
    ¬ ((observerDispatch (mainRegistrations "/proj")
          ⟨false, "/proj/src/foo.lua"⟩).countP
        (fun i => i.1 = Action.runTests) = 0)
    ∧ (observerDispatch (mainRegistrations "/proj")
          ⟨false, "/proj/src/foo.lua"⟩).countP
        (fun i => i.1 = Action.buildDocs) = 1 := by
  refine ⟨by decide, by decide⟩

/-- C3 amended: for every project root, creating `src/foo.lua` yields
exactly one doc-build invocation and exactly one (not zero) test-run
invocation: the docs handler is scoped to the `src` subtree, but the
test handler is scoped to the whole tree and watches the same `.lua`
extension, so both match. -/
theorem src_foo_lua_dispatch (basedir : String) :
    (observerDispatch (mainRegistrations basedir)
        ⟨false, basedir ++ "/src/foo.lua"⟩).countP
      (fun i => i.1 = Action.buildDocs) = 1
    ∧ (observerDispatch (mainRegistrations basedir)
        ⟨false, basedir ++ "/src/foo.lua"⟩).countP
      (fun i => i.1 = Action.runTests) = 1 := by
  have hbase := withinScope_base basedir
  have hsrc := withinScope_src basedir
  have hext := getext_src_foo basedir
  simp only [observerDispatch, mainRegistrations, List.foldr_cons, List.foldr_nil,
    hbase, hsrc, if_pos]
  simp only [ChangeHandler.on_any_event, mkChangeHandler, hext]
  simp [List.countP_cons]

/-- C4 counterexample: `run_tests` invokes its command with
`shell=False` (Python's default — the source passes no `shell=True` for
`busted`), so the tests runner does not go through the platform shell. -/
theorem run_tests_not_via_shell :
    Effect.call "busted" true ∉ run_tests "/proj" "ts" ⟨false, "/proj/a.lua"⟩ 0
    ∧ Effect.call "busted" false ∈ run_tests "/proj" "ts" ⟨false, "/proj/a.lua"⟩ 0 := by
  refine ⟨by decide, by decide⟩

/-- C4 amended: each Command Runner performs exactly one synchronous
external-command invocation of its fixed command: the docs runner runs
the documentation generator with its fixed source-directory argument
through the platform shell, while the tests runner invokes the
test-runner command directly, not through the shell. -/
theorem command_runner_calls (basedir now : String) (e : Event) (rc : Int) :
    (build_docs basedir now e rc).filter Effect.isCall
        = [Effect.call "ldoc.lua src" true]
    ∧ (run_tests basedir now e rc).filter Effect.isCall
        = [Effect.call "busted" false] :=
  ⟨rfl, rfl⟩

/-- C5 counterexample: the separator line is emitted on standard output
(`print` with no `file=`), not standard error. -/
theorem separator_not_on_stderr :
    Effect.printOut sep79 ∈ build_docs "/proj" "ts" ⟨false, "/proj/a.lua"⟩ 0
    ∧ Effect.printErr sep79 ∉ build_docs "/proj" "ts" ⟨false, "/proj/a.lua"⟩ 0 := by
  refine ⟨by decide, by decide⟩

/-- C5 amended: per invocation each Command Runner writes exactly one
line to standard error — the timestamped banner `<label> at <now>` —
while the two 79-character `-` separator lines bracketing the command go
to standard output. -/
theorem command_runner_streams (basedir now : String) (e : Event) (rc : Int) :
    (build_docs basedir now e rc).filter Effect.isErrLine
        = [Effect.printErr ("Building docs at " ++ now)]
    ∧ (build_docs basedir now e rc).filter Effect.isOutLine
        = [Effect.printOut sep79, Effect.printOut sep79]
    ∧ (run_tests basedir now e rc).filter Effect.isErrLine
        = [Effect.printErr ("Running unit tests at " ++ now)]
    ∧ (run_tests basedir now e rc).filter Effect.isOutLine
        = [Effect.printOut sep79, Effect.printOut sep79] :=
  ⟨rfl, rfl, rfl, rfl⟩

/-- C6: each Command Runner invocation performs exactly one external
call (no retries); the trace is the same whatever exit status the
external command returns — a non-zero exit raises nothing and changes
nothing — and the closing separator is still the last effect. -/
theorem exit_status_discarded (basedir now : String) (e : Event) (rc rc' : Int) :
    build_docs basedir now e rc = build_docs basedir now e rc'
    ∧ run_tests basedir now e rc = run_tests basedir now e rc'
    ∧ (build_docs basedir now e rc).countP Effect.isCall = 1
    ∧ (run_tests basedir now e rc).countP Effect.isCall = 1
    ∧ (build_docs basedir now e rc).getLast? = some (Effect.printOut sep79)
    ∧ (run_tests basedir now e rc).getLast? = some (Effect.printOut sep79) :=
  ⟨rfl, rfl, rfl, rfl, rfl, rfl⟩

/-- C7: the watch loop's lifecycle.  All steps of iteration `k` — in
particular every reference to the handler pair constructed in iteration
`k` — occur inside iteration `k` of the trace and nowhere else; each
iteration constructs exactly one test handler and one docs handler and
schedules exactly two watches; and each iteration ends with
`observer.stop()` followed by `observer.join()` (neither occurring
earlier), after which the loop starts over. -/
theorem main_loop_lifecycle (n : Nat) (m : Nat → Nat) (k j : Nat) :
    ((mainTrace n m).filter (fun st => st.iter = k)
        = if k < n then mainIteration k (m k) else [])
    ∧ (mainIteration j (m j)).countP
        (fun st => st = MainStep.constructTestHandler j) = 1
    ∧ (mainIteration j (m j)).countP
        (fun st => st = MainStep.constructDocsHandler j) = 1
    ∧ (mainIteration j (m j)).countP
        (fun st => st = MainStep.scheduleBase j ∨ st = MainStep.scheduleSrc j) = 2
    ∧ (∃ pre, mainIteration j (m j)
          = pre ++ [MainStep.stopObserver j, MainStep.joinObserver j]
        ∧ MainStep.stopObserver j ∉ pre
        ∧ MainStep.joinObserver j ∉ pre
        ∧ MainStep.interrupt j ∈ pre
        ∧ MainStep.constructTestHandler j ∈ pre
        ∧ MainStep.constructDocsHandler j ∈ pre) := by
  refine ⟨filter_iter_mainTrace n m k, ?_, ?_, ?_, ?_⟩
  · simp [mainIteration, List.countP_append, List.countP_replicate]
  · simp [mainIteration, List.countP_append, List.countP_replicate]
  · simp [mainIteration, List.countP_append, List.countP_replicate]
  · refine ⟨[MainStep.constructTestHandler j, MainStep.constructDocsHandler j,
      MainStep.scheduleBase j, MainStep.scheduleSrc j, MainStep.startObserver j]
      ++ List.replicate (m j) (MainStep.sleepTick j) ++ [MainStep.interrupt j],
      ?_, ?_, ?_, ?_, ?_, ?_⟩
    · simp [mainIteration]
    · simp [List.mem_append, List.mem_replicate]
    · simp [List.mem_append, List.mem_replicate]
    · simp [List.mem_append]
    · simp [List.mem_append]
    · simp [List.mem_append]

/-- C8: a handler's watched-extension list is fixed at construction —
delivering any sequence of events leaves the handler unchanged (the
method assigns no field); constructing from a single string equals
constructing from the one-element sequence; and two extension sequences
with the same members produce the same `on_any_event` behavior, so order
is irrelevant. -/
theorem handler_exts_immutable {α : Type} (s : String) (f : α) (l l' : List String)
    (h : ChangeHandler α) (es : List Event) (e : Event) :
    mkChangeHandler (.inl s) f = mkChangeHandler (.inr [s]) f
    ∧ (processAll h es).1 = h
    ∧ ((∀ x ∈ l, x ∈ l') → (∀ x ∈ l', x ∈ l) →
        ChangeHandler.on_any_event ⟨l, f⟩ e = ChangeHandler.on_any_event ⟨l', f⟩ e) := by
  refine ⟨rfl, foldl_fst es (h, []), ?_⟩
  intro h1 h2
  simp only [ChangeHandler.on_any_event]
  by_cases hd : e.is_directory
  · simp [hd]
  · simp only [hd, Bool.false_eq_true, if_false]
    by_cases hm : getext e.src_path ∈ l
    · rw [if_pos hm, if_pos (h1 _ hm)]
    · rw [if_neg hm, if_neg (fun hc => hm (h2 _ hc))]

/-- Witness for `handler_exts_immutable`: handlers over `[".lua",".md"]`
and `[".md",".lua"]` behave identically on a concrete event. -/
theorem handler_exts_immutable_witness :
    ChangeHandler.on_any_event (⟨[".lua", ".md"], (0 : Nat)⟩ : ChangeHandler Nat)
        ⟨false, "x/a.md"⟩
      = ChangeHandler.on_any_event (⟨[".md", ".lua"], (0 : Nat)⟩ : ChangeHandler Nat)
        ⟨false, "x/a.md"⟩ :=
  (handler_exts_immutable ".lua" (0 : Nat) [".lua", ".md"] [".md", ".lua"]
    (⟨[".lua"], (0 : Nat)⟩ : ChangeHandler Nat) [] ⟨false, "x/a.md"⟩).2.2
    (by decide) (by decide)

/-- C9: a handler each of whose watched extensions contains an ASCII
uppercase letter never invokes its action: classified extensions are
lowercased, watched extensions are stored verbatim, so membership never
holds. -/
theorem uppercase_exts_never_match {α : Type} (h : ChangeHandler α)
    (hup : ∀ s ∈ h.exts, ∃ c ∈ s.data, isUpperAscii c) (e : Event) :
    h.on_any_event e = [] := by
  unfold ChangeHandler.on_any_event
  by_cases hd : e.is_directory
  · simp [hd]
  · simp only [hd, Bool.false_eq_true, if_false]
    rw [if_neg]
    intro hm
    obtain ⟨c, hc, hcu⟩ := hup _ hm
    have hdata : (getext e.src_path).data = pyLowerL (splitextL e.src_path.data).2 :=
      congrArg String.data rfl
    rw [hdata] at hc
    obtain ⟨c0, -, hc0⟩ := List.mem_map.mp hc
    exact pyLowerChar_not_upper c0 (hc0 ▸ hcu)

/-- Witness for `uppercase_exts_never_match`: a handler watching
`".LUA"` ignores even a `.LUA`-suffixed file event. -/
theorem uppercase_exts_never_match_witness :
    ChangeHandler.on_any_event (⟨[".LUA"], (0 : Nat)⟩ : ChangeHandler Nat)
      ⟨false, "a/b.LUA"⟩ = [] :=
  uppercase_exts_never_match (⟨[".LUA"], (0 : Nat)⟩ : ChangeHandler Nat)
    (by decide) ⟨false, "a/b.LUA"⟩

/-- C10: a path whose final segment starts with a dot and has no other
dot classifies to the empty extension — the leading-dot segment is not
its own extension. -/
theorem leading_dot_segment_no_ext (p : String) (rest : List Char)
    (hseg : finalSegment p.data = '.' :: rest) (hnd : '.' ∉ rest) :
    getext p = "" := by
  have hx : '.' ∉ rest.dropWhile (fun c => c = '.') :=
    fun hc => hnd ((List.dropWhile_sublist _).mem hc)
  have hs : specExtL p.data = [] := by
    unfold specExtL
    rw [hseg]
    show (if '.' ∈ List.dropWhile (fun c => decide (c = '.')) ('.' :: rest)
          then pyLowerL (fromLastDot ('.' :: rest)) else []) = []
    rw [List.dropWhile_cons]
    simp [hx]
  unfold getext
  rw [getextL_eq_specExtL, hs]

/-- Witness for `leading_dot_segment_no_ext`: `getext ".bashrc" = ""`. -/
theorem leading_dot_segment_no_ext_witness : getext ".bashrc" = "" :=
  leading_dot_segment_no_ext ".bashrc" "bashrc".data (by decide) (by decide)

end Mon
